import Mathlib

/-!
Verification of the incremental Merkle tree accumulator from
`src/incremental_tree.rs` (struct `IncrementalMerkleTree<const HEIGHT: usize>`).

The embedding is executable: digests are lists of byte values, `keccak256` is a
full executable Keccak-256 (legacy multi-rate 0x01 padding, as computed by the
`alloy_primitives::keccak256` dependency of the source), and the accumulator
state is a structure with the same fields as the Rust struct.  Machine indices
and sizes are `Nat`; the `usize` arithmetic in the source never overflows in
the reachable range, so `Nat` arithmetic coincides with it.
-/

namespace IncrementalMerkle

/-- A digest is modelled as a list of byte values (the 32 bytes of a `B256`). -/
abbrev B256 := List Nat

/-- The all-zero 32-byte digest, i.e. the Rust `B256::default()`. -/
def zeroB256 : B256 := List.replicate 32 0

/-- Left-rotation of a 64-bit lane. -/
def rotl64 (x n : Nat) : Nat :=
  ((x <<< n) % (1 <<< 64)) ||| (x >>> (64 - n))

/-- Keccak rotation offsets, indexed by lane index x + 5 * y, generated by the
FIPS 202 recurrence: starting from (x, y) = (1, 0), the offset at step t is the
triangular number (t+1)(t+2)/2 mod 64 and the coordinate moves by
(x, y) := (y, (2x + 3y) mod 5). -/
def keccakRotc : List Nat :=
  ((List.range 24).foldl
    (fun (p : List Nat × Nat × Nat) t =>
      (p.1.set (p.2.1 + 5 * p.2.2) ((t + 1) * (t + 2) / 2 % 64),
        p.2.2, (2 * p.2.1 + 3 * p.2.2) % 5))
    (List.replicate 25 0, 1, 0)).1

/-- One step of the degree-8 LFSR of FIPS 202 (polynomial x^8+x^6+x^5+x^4+1)
used to generate the round constants. -/
def lfsrStep (R : Nat) : Nat :=
  if R &&& 0x80 = 0x80 then ((R <<< 1) ^^^ 0x71) &&& 0xFF else (R <<< 1) &&& 0xFF

/-- LFSR register contents after n steps, starting from 1. -/
def lfsrStream : Nat → Nat
  | 0 => 1
  | n + 1 => lfsrStep (lfsrStream n)

/-- Round constant of round i: the low LFSR bits 7i..7i+6 placed at bit
positions 2^j - 1. -/
def keccakRCval (i : Nat) : Nat :=
  (List.range 7).foldl
    (fun acc j => acc ^^^ ((lfsrStream (7 * i + j) &&& 1) <<< (2 ^ j - 1))) 0

/-- The 24 Keccak round constants. -/
def keccakRC : List Nat := (List.range 24).map keccakRCval

/-- Keccak theta step on a 25-lane state (lane index x + 5 * y). -/
def keccakTheta (A : List Nat) : List Nat :=
  let C := (List.range 5).map fun x =>
    (((A.getD x 0 ^^^ A.getD (x + 5) 0) ^^^ A.getD (x + 10) 0) ^^^ A.getD (x + 15) 0) ^^^
      A.getD (x + 20) 0
  let Dv := (List.range 5).map fun x =>
    C.getD ((x + 4) % 5) 0 ^^^ rotl64 (C.getD ((x + 1) % 5) 0) 1
  (List.range 25).map fun i => A.getD i 0 ^^^ Dv.getD (i % 5) 0

/-- Keccak rho and pi steps combined. -/
def keccakRhoPi (A : List Nat) : List Nat :=
  (List.range 25).foldl
    (fun B i =>
      B.set ((i / 5) + 5 * ((2 * (i % 5) + 3 * (i / 5)) % 5))
        (rotl64 (A.getD i 0) (keccakRotc.getD i 0)))
    (List.replicate 25 0)

/-- Keccak chi step. -/
def keccakChi (B : List Nat) : List Nat :=
  (List.range 25).map fun i =>
    B.getD i 0 ^^^
      ((B.getD ((i % 5 + 1) % 5 + 5 * (i / 5)) 0 ^^^ ((1 <<< 64) - 1)) &&&
        B.getD ((i % 5 + 2) % 5 + 5 * (i / 5)) 0)

/-- One Keccak-f round, including the iota step for round constant rc. -/
def keccakRound (A : List Nat) (rc : Nat) : List Nat :=
  let B := keccakChi (keccakRhoPi (keccakTheta A))
  B.set 0 (B.getD 0 0 ^^^ rc)

/-- The full Keccak-f[1600] permutation. -/
def keccakF (A : List Nat) : List Nat := keccakRC.foldl keccakRound A

/-- Keccak multi-rate padding for a message of the given byte length (rate 136). -/
def keccakPad (len : Nat) : List Nat :=
  let m := 136 - len % 136
  if m = 1 then [0x81] else 0x01 :: (List.replicate (m - 2) 0 ++ [0x80])

/-- Interpret a 136-byte block as 17 little-endian 64-bit lanes, padded to 25 lanes with zeros. -/
def bytesToLanes (block : List Nat) : List Nat :=
  (List.range 25).map fun j =>
    (List.range 8).foldl (fun acc b => acc + (block.getD (8 * j + b) 0 <<< (8 * b))) 0

/-- Absorb one 136-byte block into the sponge state. -/
def absorbBlock (st block : List Nat) : List Nat :=
  let lanes := bytesToLanes block
  keccakF ((List.range 25).map fun i => st.getD i 0 ^^^ lanes.getD i 0)

/-- Keccak-256 (legacy 0x01 padding, as used by alloy-primitives) of a byte sequence. -/
def keccak256 (msg : List Nat) : List Nat :=
  let padded := msg ++ keccakPad msg.length
  let st := (List.range (padded.length / 136)).foldl
    (fun st i => absorbBlock st ((padded.drop (136 * i)).take 136))
    (List.replicate 25 0)
  (List.range 32).map fun i => (st.getD (i / 8) 0 >>> (8 * (i % 8))) % 256

/-- keccak256 copied over the 64-byte buffer `hash_buf` holding digest `a` in
bytes 0..32 and digest `b` in bytes 32..64; this is the combining step the
source performs everywhere it hashes two digests. -/
def hashConcat (a b : B256) : B256 := keccak256 (a ++ b)

/-- The error enum `IncrementalMerkleTreeError` of the source. -/
inductive IncrementalMerkleTreeError
  | TreeFull
  | LoopDidNotTerminate
  | IndexOutOfBounds
deriving DecidableEq, Repr

instance : DecidableEq (Except IncrementalMerkleTreeError Unit) := fun a b => by
  cases a with
  | ok u =>
    cases b with
    | ok v => exact isTrue (by cases u; cases v; rfl)
    | error f => exact isFalse fun hc => Except.noConfusion hc
  | error e =>
    cases b with
    | ok v => exact isFalse fun hc => Except.noConfusion hc
    | error f =>
      cases decEq e f with
      | isTrue hh => exact isTrue (by rw [hh])
      | isFalse hh => exact isFalse fun hc => hh (by injection hc)

/-- The struct `IncrementalMerkleTree<const HEIGHT: usize>`: the fixed-size
arrays `zero_hashes` and `active_branch` (length HEIGHT) and the `Vec`
`intermediates` become lists; `size` is the leaf counter, `cache_valid` the
cache flag. -/
structure IncrementalMerkleTree (HEIGHT : Nat) where
  zero_hashes : List B256
  active_branch : List B256
  size : Nat
  intermediates : List B256
  cache_valid : Bool
deriving DecidableEq, Repr

/-- The zero-hash precomputation loop of `new`: starting from an array of
`B256::default()`, for each height in 1..HEIGHT set
`zero_hashes[height] = keccak256(zero_hashes[height-1] ++ zero_hashes[height-1])`. -/
def zeroHashesInit (HEIGHT : Nat) : List B256 :=
  (List.range' 1 (HEIGHT - 1)).foldl
    (fun zh height =>
      zh.set height (hashConcat (zh.getD (height - 1) zeroB256) (zh.getD (height - 1) zeroB256)))
    (List.replicate HEIGHT zeroB256)

/-- `IncrementalMerkleTree::new`. -/
def new (HEIGHT : Nat) : IncrementalMerkleTree HEIGHT where
  zero_hashes := zeroHashesInit HEIGHT
  active_branch := List.replicate HEIGHT zeroB256
  size := 0
  intermediates := List.replicate ((1 <<< (HEIGHT + 1)) - 1) zeroB256
  cache_valid := false

/-- One iteration of the fold in `root`.  The accumulator pair carries the
running `tree_root` together with the mutable local variable `size`, which the
source right-shifts by one at each height. -/
def rootStep {HEIGHT : Nat} (t : IncrementalMerkleTree HEIGHT) (acc : B256 × Nat)
    (height : Nat) : B256 × Nat :=
  (if acc.2 % 2 = 1 then
      hashConcat (t.active_branch.getD height zeroB256) acc.1
    else
      hashConcat acc.1 (t.zero_hashes.getD height zeroB256),
    acc.2 >>> 1)

/-- `IncrementalMerkleTree::root`: fold over heights 0..HEIGHT starting from
`B256::default()` and the current size. -/
def root {HEIGHT : Nat} (t : IncrementalMerkleTree HEIGHT) : B256 :=
  ((List.range HEIGHT).foldl (rootStep t) (zeroB256, t.size)).1

/-- The settle loop of `append`: iterate over the remaining heights with the
carried `intermediate` hash and the shifted local copy `size` of the
post-increment leaf count; `t` is the state whose `size` field was already
incremented.  Falling off the end of the heights yields `LoopDidNotTerminate`. -/
def appendLoop {HEIGHT : Nat} (t : IncrementalMerkleTree HEIGHT) (leaf : B256) :
    List Nat → B256 → Nat →
      IncrementalMerkleTree HEIGHT × Except IncrementalMerkleTreeError Unit
  | [], _, _ => (t, Except.error IncrementalMerkleTreeError.LoopDidNotTerminate)
  | height :: rest, intermediate, size =>
    if size % 2 = 1 then
      ({ t with
          active_branch := t.active_branch.set height intermediate,
          intermediates := t.intermediates.set ((1 <<< HEIGHT) + t.size - 2) leaf,
          cache_valid := false },
        Except.ok ())
    else
      appendLoop t leaf rest
        (hashConcat (t.active_branch.getD height zeroB256) intermediate)
        (size >>> 1)

/-- `IncrementalMerkleTree::append`: increment `size` first, reject with
`TreeFull` when the new size exceeds 2^HEIGHT - 1, otherwise run the settle
loop.  The first component is the state after the call (the source mutates
`self`), the second the returned `Result`. -/
def append {HEIGHT : Nat} (t : IncrementalMerkleTree HEIGHT) (leaf : B256) :
    IncrementalMerkleTree HEIGHT × Except IncrementalMerkleTreeError Unit :=
  let t1 := { t with size := t.size + 1 }
  if t1.size > (1 <<< HEIGHT) - 1 then
    (t1, Except.error IncrementalMerkleTreeError.TreeFull)
  else
    appendLoop t1 leaf (List.range HEIGHT) leaf t1.size

/-- Sequential appends, keeping only the state (the claims that use this also
establish that every call in the sequence succeeds). -/
def appendAll {HEIGHT : Nat} (t : IncrementalMerkleTree HEIGHT) (leaves : List B256) :
    IncrementalMerkleTree HEIGHT :=
  leaves.foldl (fun s l => (append s l).1) t

/-- The digest of a perfectly empty subtree of the given depth:
`zeroHash 0` is the zero digest and each level hashes two copies of the level
below.  (Spec-side definition of the empty-subtree table contents.) -/
def zeroHash : Nat → B256
  | 0 => zeroB256
  | h + 1 => hashConcat (zeroHash h) (zeroHash h)

/-- Direct bottom-up root of the depth-h complete subtree whose leaves are
`f a, f (a+1), ..., f (a + 2^h - 1)`.  (Spec-side definition, following the
specification text of a direct bottom-up keccak256 build.) -/
def buildRoot : Nat → (Nat → B256) → Nat → B256
  | 0, f, a => f a
  | h + 1, f, a => hashConcat (buildRoot h f a) (buildRoot h f (a + 2 ^ h))

/-- Leaf slot contents for a leaf list: the first `leaves.length` slots hold
the given leaves, every further slot holds the zero digest. -/
def leafFun (leaves : List B256) : Nat → B256 := fun i => leaves.getD i zeroB256

/-- Spec-side direct bottom-up build: the root of a complete depth-H binary
tree whose first k leaf slots hold the given leaves and whose remaining leaf
slots hold the zero digest. -/
def specDirectRoot (H : Nat) (leaves : List B256) : B256 :=
  buildRoot H (leafFun leaves) 0

/-- The value carried by the settle loop when it reaches the given height:
the appended leaf hashed successively with the stored branch entries of all
lower heights. -/
def carryUp (branch : List B256) (l : B256) : Nat → B256
  | 0 => l
  | h + 1 => hashConcat (branch.getD h zeroB256) (carryUp branch l h)

/-! ### List helpers -/

theorem getD_eq_default {α : Type} (l : List α) (d : α) (i : Nat) (h : l.length ≤ i) :
    l.getD i d = d := by
  simp [List.getD_eq_getElem?_getD, List.getElem?_eq_none h]

theorem getD_replicate {α : Type} (n : Nat) (x : α) (i : Nat) :
    (List.replicate n x).getD i x = x := by
  rcases Nat.lt_or_ge i n with h | h
  · simp [List.getD_eq_getElem?_getD, List.getElem?_eq_getElem, List.length_replicate, h]
  · simp [List.getD_eq_getElem?_getD, List.getElem?_eq_none, List.length_replicate, h]

theorem getD_set_self {α : Type} (l : List α) (i : Nat) (a d : α) (h : i < l.length) :
    (l.set i a).getD i d = a := by
  simp [List.getD_eq_getElem?_getD, List.getElem?_set_self, h]

theorem getD_set_ne {α : Type} (l : List α) (i j : Nat) (a d : α) (h : i ≠ j) :
    (l.set i a).getD j d = l.getD j d := by
  simp [List.getD_eq_getElem?_getD, List.getElem?_set_ne h]

theorem getD_append_left {α : Type} (l1 l2 : List α) (i : Nat) (d : α) (h : i < l1.length) :
    (l1 ++ l2).getD i d = l1.getD i d := by
  simp [List.getD_eq_getElem?_getD, List.getElem?_append_left h]

theorem getD_concat_self {α : Type} (l : List α) (a d : α) :
    (l ++ [a]).getD l.length d = a := by
  simp [List.getD_eq_getElem?_getD]

/-! ### Arithmetic helpers -/

theorem mod_pow_succ_eq (s h : Nat) :
    s % 2 ^ (h + 1) = s % 2 ^ h + 2 ^ h * (s / 2 ^ h % 2) := by
  rw [pow_succ, Nat.mod_mul]

theorem div_pow_succ_eq (s h : Nat) : s / 2 ^ h / 2 = s / 2 ^ (h + 1) := by
  rw [Nat.div_div_eq_div_mul, pow_succ]

theorem pred_div_pow_eq (s j : Nat) (h : 1 ≤ s % 2 ^ j) : (s - 1) / 2 ^ j = s / 2 ^ j := by
  have hd := Nat.div_add_mod s (2 ^ j)
  have hlt : s % 2 ^ j < 2 ^ j := Nat.mod_lt s (Nat.two_pow_pos j)
  have h2 : s - 1 = (s % 2 ^ j - 1) + 2 ^ j * (s / 2 ^ j) := by omega
  rw [h2, Nat.add_mul_div_left _ _ (Nat.two_pow_pos j), Nat.div_eq_of_lt (by omega),
    Nat.zero_add]

theorem pred_div_pow_eq_sub (s j : Nat) (h0 : s % 2 ^ j = 0) (h1 : 1 ≤ s) :
    (s - 1) / 2 ^ j = s / 2 ^ j - 1 := by
  have hd := Nat.div_add_mod s (2 ^ j)
  have hq : 1 ≤ s / 2 ^ j := by
    rcases Nat.eq_zero_or_pos (s / 2 ^ j) with hq0 | hq
    · rw [hq0, Nat.mul_zero] at hd; omega
    · exact hq
  obtain ⟨q, hq'⟩ : ∃ q, s / 2 ^ j = q + 1 := ⟨s / 2 ^ j - 1, by omega⟩
  rw [hq', Nat.mul_succ] at hd
  have h2 : s - 1 = (2 ^ j - 1) + 2 ^ j * q := by
    have := Nat.two_pow_pos j
    omega
  rw [h2, Nat.add_mul_div_left _ _ (Nat.two_pow_pos j),
    Nat.div_eq_of_lt (by have := Nat.two_pow_pos j; omega), Nat.zero_add, hq']
  omega

theorem two_pow_le_of_mod_eq_zero (s j : Nat) (h0 : s % 2 ^ j = 0) (h1 : 1 ≤ s) :
    2 ^ j ≤ s := Nat.le_of_dvd h1 (Nat.dvd_of_mod_eq_zero h0)

theorem div_mul_eq_of_mod_eq_zero (s j : Nat) (h0 : s % 2 ^ j = 0) :
    s / 2 ^ j * 2 ^ j = s := Nat.div_mul_cancel (Nat.dvd_of_mod_eq_zero h0)

theorem settle_not_lt (s a b : Nat) (hab : a < b) (hb : s % 2 ^ b = 0) :
    ¬s / 2 ^ a % 2 = 1 := by
  have h1 : s % 2 ^ (a + 1) = 0 := by
    have hmm := Nat.mod_mod_of_dvd s (pow_dvd_pow 2 (by omega : a + 1 ≤ b))
    rw [hb] at hmm
    simpa using hmm.symm
  have h2 := mod_pow_succ_eq s a
  have hp := Nat.two_pow_pos a
  rcases Nat.mod_two_eq_zero_or_one (s / 2 ^ a) with h | h
  · simp [h]
  · rw [h, Nat.mul_one] at h2; omega

theorem settle_unique (s a b : Nat)
    (ha0 : s % 2 ^ a = 0) (ha1 : s / 2 ^ a % 2 = 1)
    (hb0 : s % 2 ^ b = 0) (hb1 : s / 2 ^ b % 2 = 1) : a = b := by
  rcases Nat.lt_trichotomy a b with h | h | h
  · exact absurd ha1 (settle_not_lt s a b h hb0)
  · exact h
  · exact absurd hb1 (settle_not_lt s b a h ha0)

/-! ### Zero-hash table characterization -/

theorem zeroHashesAux :
    ∀ (n s : Nat) (arr : List B256),
      1 ≤ s →
      (∀ h, h < s → arr.getD h zeroB256 = zeroHash h) →
      s + n ≤ arr.length →
      ((List.range' s n).foldl
          (fun zh height =>
            zh.set height
              (hashConcat (zh.getD (height - 1) zeroB256) (zh.getD (height - 1) zeroB256)))
          arr).length = arr.length ∧
        ∀ h, h < s + n →
          ((List.range' s n).foldl
              (fun zh height =>
                zh.set height
                  (hashConcat (zh.getD (height - 1) zeroB256) (zh.getD (height - 1) zeroB256)))
              arr).getD h zeroB256 = zeroHash h := by
  intro n
  induction n with
  | zero =>
    intro s arr hs hinv hle
    exact ⟨rfl, fun h hh => hinv h (by omega)⟩
  | succ n ih =>
    intro s arr hs hinv hle
    rw [List.range'_succ]
    simp only [List.foldl_cons]
    have hstep : arr.getD (s - 1) zeroB256 = zeroHash (s - 1) := hinv (s - 1) (by omega)
    have hz : hashConcat (arr.getD (s - 1) zeroB256) (arr.getD (s - 1) zeroB256) = zeroHash s := by
      rw [hstep]
      have : s = (s - 1) + 1 := by omega
      rw [this, zeroHash]
      simp
    have hlen : (arr.set s (hashConcat (arr.getD (s - 1) zeroB256)
        (arr.getD (s - 1) zeroB256))).length = arr.length := List.length_set arr _ _
    have hinv2 : ∀ h, h < s + 1 →
        (arr.set s (hashConcat (arr.getD (s - 1) zeroB256)
          (arr.getD (s - 1) zeroB256))).getD h zeroB256 = zeroHash h := by
      intro h hh
      rcases Nat.lt_or_ge h s with h2 | h2
      · rw [getD_set_ne _ _ _ _ _ (by omega)]
        exact hinv h h2
      · have hhs : h = s := by omega
        rw [hhs, getD_set_self _ _ _ _ (by omega), hz]
    have := ih (s + 1)
      (arr.set s (hashConcat (arr.getD (s - 1) zeroB256) (arr.getD (s - 1) zeroB256)))
      (by omega) hinv2 (by omega)
    refine ⟨by rw [this.1, hlen], fun h hh => this.2 h (by omega)⟩

theorem zero_hashes_new_length (H : Nat) : (new H).zero_hashes.length = H := by
  cases H with
  | zero => rfl
  | succ H =>
    show (zeroHashesInit (H + 1)).length = H + 1
    unfold zeroHashesInit
    have := zeroHashesAux (H + 1 - 1) 1 (List.replicate (H + 1) zeroB256)
      (le_refl 1)
      (by intro h hh
          have : h = 0 := by omega
          rw [this]
          exact getD_replicate _ _ _)
      (by simp only [List.length_replicate]; omega)
    rw [this.1, List.length_replicate]

theorem zero_hashes_new_getD (H : Nat) (h : Nat) (hh : h < H) :
    (new H).zero_hashes.getD h zeroB256 = zeroHash h := by
  cases H with
  | zero => omega
  | succ H =>
    show (zeroHashesInit (H + 1)).getD h zeroB256 = zeroHash h
    unfold zeroHashesInit
    have := zeroHashesAux (H + 1 - 1) 1 (List.replicate (H + 1) zeroB256)
      (le_refl 1)
      (by intro j hj
          have : j = 0 := by omega
          rw [this]
          exact getD_replicate _ _ _)
      (by simp only [List.length_replicate]; omega)
    exact this.2 h (by omega)

/-! ### Structural facts about the settle loop and `append` -/

theorem appendLoop_size {H : Nat} (t : IncrementalMerkleTree H) (leaf : B256) :
    ∀ (hs : List Nat) (intr : B256) (sz : Nat),
      ((appendLoop t leaf hs intr sz).1).size = t.size := by
  intro hs
  induction hs with
  | nil => intro intr sz; rfl
  | cons height rest ih =>
    intro intr sz
    by_cases h : sz % 2 = 1
    · simp [appendLoop, h]
    · simp only [appendLoop, h, if_false]
      exact ih _ _

theorem appendLoop_zero_hashes {H : Nat} (t : IncrementalMerkleTree H) (leaf : B256) :
    ∀ (hs : List Nat) (intr : B256) (sz : Nat),
      ((appendLoop t leaf hs intr sz).1).zero_hashes = t.zero_hashes := by
  intro hs
  induction hs with
  | nil => intro intr sz; rfl
  | cons height rest ih =>
    intro intr sz
    by_cases h : sz % 2 = 1
    · simp [appendLoop, h]
    · simp only [appendLoop, h, if_false]
      exact ih _ _

theorem appendLoop_branch_length {H : Nat} (t : IncrementalMerkleTree H) (leaf : B256) :
    ∀ (hs : List Nat) (intr : B256) (sz : Nat),
      ((appendLoop t leaf hs intr sz).1).active_branch.length = t.active_branch.length := by
  intro hs
  induction hs with
  | nil => intro intr sz; rfl
  | cons height rest ih =>
    intro intr sz
    by_cases h : sz % 2 = 1
    · simp [appendLoop, h]
    · simp only [appendLoop, h, if_false]
      exact ih _ _

theorem appendLoop_snd_ok {H : Nat} (t : IncrementalMerkleTree H) (leaf : B256) :
    ∀ (n s0 : Nat) (intr : B256) (sz : Nat), 1 ≤ sz → sz < 2 ^ n →
      (appendLoop t leaf (List.range' s0 n) intr sz).2 = Except.ok () := by
  intro n
  induction n with
  | zero =>
    intro s0 intr sz h1 h2
    simp at h2
    omega
  | succ n ih =>
    intro s0 intr sz h1 h2
    rw [List.range'_succ]
    by_cases h : sz % 2 = 1
    · simp [appendLoop, h]
    · simp only [appendLoop, h, if_false]
      rw [Nat.shiftRight_one]
      rw [pow_succ] at h2
      exact ih _ _ _ (by omega) (by omega)

theorem appendLoop_cache_of_ok {H : Nat} (t : IncrementalMerkleTree H) (leaf : B256) :
    ∀ (hs : List Nat) (intr : B256) (sz : Nat),
      (appendLoop t leaf hs intr sz).2 = Except.ok () →
      ((appendLoop t leaf hs intr sz).1).intermediates
          = t.intermediates.set ((1 <<< H) + t.size - 2) leaf ∧
        ((appendLoop t leaf hs intr sz).1).cache_valid = false := by
  intro hs
  induction hs with
  | nil =>
    intro intr sz hok
    exact absurd hok (by simp [appendLoop])
  | cons height rest ih =>
    intro intr sz hok
    by_cases h : sz % 2 = 1
    · simp [appendLoop, h]
    · simp only [appendLoop, h, if_false] at hok ⊢
      exact ih _ _ hok

theorem append_fst_size {H : Nat} (t : IncrementalMerkleTree H) (l : B256) :
    ((append t l).1).size = t.size + 1 := by
  unfold append
  by_cases h : t.size + 1 > (1 <<< H) - 1
  · simp [h]
  · simp only [h, if_false]
    exact appendLoop_size _ _ _ _ _

theorem append_fst_zero_hashes {H : Nat} (t : IncrementalMerkleTree H) (l : B256) :
    ((append t l).1).zero_hashes = t.zero_hashes := by
  unfold append
  by_cases h : t.size + 1 > (1 <<< H) - 1
  · simp [h]
  · simp only [h, if_false]
    exact appendLoop_zero_hashes _ _ _ _ _

theorem append_fst_branch_length {H : Nat} (t : IncrementalMerkleTree H) (l : B256) :
    ((append t l).1).active_branch.length = t.active_branch.length := by
  unfold append
  by_cases h : t.size + 1 > (1 <<< H) - 1
  · simp [h]
  · simp only [h, if_false]
    exact appendLoop_branch_length _ _ _ _ _

theorem one_shiftLeft_eq (n : Nat) : 1 <<< n = 2 ^ n := by
  rw [Nat.shiftLeft_eq, Nat.one_mul]

theorem append_snd_eq {H : Nat} (t : IncrementalMerkleTree H) (l : B256) :
    (append t l).2 =
      if t.size + 1 ≤ 2 ^ H - 1 then Except.ok ()
      else Except.error IncrementalMerkleTreeError.TreeFull := by
  unfold append
  rw [one_shiftLeft_eq]
  have hp := Nat.two_pow_pos H
  by_cases h : t.size + 1 > 2 ^ H - 1
  · simp only [h, if_true]
    rw [if_neg (by omega)]
  · simp only [h, if_false]
    rw [if_pos (by omega), List.range_eq_range']
    exact appendLoop_snd_ok _ _ _ _ _ _ (by omega) (by omega)

theorem appendAll_size {H : Nat} (leaves : List B256) :
    ∀ t : IncrementalMerkleTree H, (appendAll t leaves).size = t.size + leaves.length := by
  induction leaves with
  | nil => intro t; simp [appendAll]
  | cons l rest ih =>
    intro t
    show (appendAll ((append t l).1) rest).size = t.size + (l :: rest).length
    rw [ih, append_fst_size]
    simp
    omega

theorem appendAll_concat {H : Nat} (t : IncrementalMerkleTree H) (leaves : List B256)
    (l : B256) : appendAll t (leaves ++ [l]) = (append (appendAll t leaves) l).1 := by
  unfold appendAll
  rw [List.foldl_append]
  rfl

/-! ### Spec-side helper lemmas -/

theorem buildRoot_congr : ∀ (h : Nat) (f g : Nat → B256) (a : Nat),
    (∀ i, a ≤ i → i < a + 2 ^ h → f i = g i) →
    buildRoot h f a = buildRoot h g a := by
  intro h
  induction h with
  | zero =>
    intro f g a hfg
    exact hfg a (le_refl a) (by simp)
  | succ h ih =>
    intro f g a hfg
    show hashConcat (buildRoot h f a) (buildRoot h f (a + 2 ^ h)) =
      hashConcat (buildRoot h g a) (buildRoot h g (a + 2 ^ h))
    rw [ih f g a (fun i h1 h2 => hfg i h1 (by rw [pow_succ]; omega)),
      ih f g (a + 2 ^ h) (fun i h1 h2 => hfg i (by omega) (by rw [pow_succ]; omega))]

theorem buildRoot_all_zero : ∀ (h : Nat) (f : Nat → B256) (k a : Nat),
    (∀ i, k ≤ i → f i = zeroB256) → k ≤ a → buildRoot h f a = zeroHash h := by
  intro h
  induction h with
  | zero =>
    intro f k a hz ha
    exact hz a ha
  | succ h ih =>
    intro f k a hz ha
    show hashConcat (buildRoot h f a) (buildRoot h f (a + 2 ^ h)) = zeroHash (h + 1)
    rw [ih f k a hz ha, ih f k (a + 2 ^ h) hz (by have := Nat.two_pow_pos h; omega), zeroHash]

theorem leafFun_append_lt (leaves : List B256) (l : B256) (i : Nat) (h : i < leaves.length) :
    leafFun (leaves ++ [l]) i = leafFun leaves i := getD_append_left _ _ _ _ h

theorem leafFun_append_self (leaves : List B256) (l : B256) :
    leafFun (leaves ++ [l]) leaves.length = l := getD_concat_self _ _ _

theorem leafFun_default (leaves : List B256) (i : Nat) (h : leaves.length ≤ i) :
    leafFun leaves i = zeroB256 := getD_eq_default _ _ _ h

/-! ### More arithmetic about the settle position -/

theorem settle_start_eq (s h : Nat) (hmod : s % 2 ^ h = 0) (hodd : s / 2 ^ h % 2 = 1) :
    s - 2 ^ h = s / 2 ^ (h + 1) * 2 ^ (h + 1) := by
  have e1 := div_mul_eq_of_mod_eq_zero s h hmod
  have e2 := Nat.div_add_mod (s / 2 ^ h) 2
  rw [hodd, div_pow_succ_eq] at e2
  have e3 : s = s / 2 ^ (h + 1) * 2 ^ (h + 1) + 2 ^ h := by
    conv_lhs => rw [← e1, ← e2]
    rw [pow_succ]
    ring
  omega

theorem mod_pow_pos_of_between (s a j : Nat) (hs2 : s % 2 ^ (a + 1) = 2 ^ a)
    (hj : a + 1 ≤ j) : 1 ≤ s % 2 ^ j := by
  rcases Nat.eq_zero_or_pos (s % 2 ^ j) with hz | hp
  · have hmm := Nat.mod_mod_of_dvd s (pow_dvd_pow 2 hj)
    rw [hz] at hmm
    simp at hmm
    rw [← hmm] at hs2
    have := Nat.two_pow_pos a
    omega
  · exact hp

theorem left_sibling_le (k h : Nat) (hodd : k / 2 ^ h % 2 = 1) :
    k / 2 ^ (h + 1) * 2 ^ (h + 1) + 2 ^ h ≤ k := by
  have e2 := Nat.div_add_mod (k / 2 ^ h) 2
  rw [hodd, div_pow_succ_eq] at e2
  have e4 : k / 2 ^ (h + 1) * 2 ^ (h + 1) + 2 ^ h = k / 2 ^ h * 2 ^ h := by
    conv_rhs => rw [← e2]
    rw [pow_succ]
    ring
  rw [e4]
  exact Nat.div_mul_le_self k (2 ^ h)

theorem aligned_pred_mul (s j : Nat) (hmod : s % 2 ^ j = 0) :
    (s / 2 ^ j - 1) * 2 ^ j = s - 2 ^ j := by
  rw [Nat.sub_one_mul, div_mul_eq_of_mod_eq_zero s j hmod]

/-! ### The main invariant tying an accumulator state to its appended leaves -/

/-- A state of height H represents a list of appended leaves: the size field
counts them, the zero-hash table holds the empty-subtree digests, and at every
height where the binary representation of the count has a set bit the active
branch stores the root of the corresponding completed left subtree. -/
def goodState (H : Nat) (leaves : List B256) (t : IncrementalMerkleTree H) : Prop :=
  t.size = leaves.length ∧
  t.active_branch.length = H ∧
  (∀ h, h < H → t.zero_hashes.getD h zeroB256 = zeroHash h) ∧
  (∀ h, h < H → leaves.length / 2 ^ h % 2 = 1 →
    t.active_branch.getD h zeroB256 =
      buildRoot h (leafFun leaves) (leaves.length / 2 ^ (h + 1) * 2 ^ (h + 1)))

theorem goodState_new (H : Nat) : goodState H [] (new H) := by
  refine ⟨rfl, by simp [new], fun h hh => zero_hashes_new_getD H h hh, ?_⟩
  intro h hh hodd
  simp at hodd

theorem odd_start_eq (k h : Nat) (hodd : k / 2 ^ h % 2 = 1) :
    k / 2 ^ h * 2 ^ h = k / 2 ^ (h + 1) * 2 ^ (h + 1) + 2 ^ h := by
  have e2 := Nat.div_add_mod (k / 2 ^ h) 2
  rw [hodd, div_pow_succ_eq] at e2
  conv_lhs => rw [← e2]
  rw [pow_succ]
  ring

theorem even_start_eq (k h : Nat) (heven : k / 2 ^ h % 2 = 0) :
    k / 2 ^ h * 2 ^ h = k / 2 ^ (h + 1) * 2 ^ (h + 1) := by
  have e2 := Nat.div_add_mod (k / 2 ^ h) 2
  rw [heven, div_pow_succ_eq, Nat.add_zero] at e2
  conv_lhs => rw [← e2]
  rw [pow_succ]
  ring

theorem appendLoop_goodState (H : Nat) (leaves : List B256)
    (t1 : IncrementalMerkleTree H) (l : B256)
    (hsize1 : t1.size = leaves.length + 1)
    (hblen1 : t1.active_branch.length = H)
    (hzh1 : ∀ h, h < H → t1.zero_hashes.getD h zeroB256 = zeroHash h)
    (hbr1 : ∀ h, h < H → leaves.length / 2 ^ h % 2 = 1 →
      t1.active_branch.getD h zeroB256 =
        buildRoot h (leafFun leaves) (leaves.length / 2 ^ (h + 1) * 2 ^ (h + 1)))
    (hcap : leaves.length + 1 < 2 ^ H) :
    ∀ (n h0 : Nat) (intr : B256),
      h0 + n = H →
      (leaves.length + 1) % 2 ^ h0 = 0 →
      intr = buildRoot h0 (leafFun (leaves ++ [l])) (leaves.length + 1 - 2 ^ h0) →
      goodState H (leaves ++ [l])
        ((appendLoop t1 l (List.range' h0 n) intr ((leaves.length + 1) / 2 ^ h0)).1) := by
  intro n
  induction n with
  | zero =>
    intro h0 intr hH hmod hintr
    exfalso
    have hh0 : h0 = H := by omega
    subst hh0
    have hle : 2 ^ h0 ≤ leaves.length + 1 :=
      two_pow_le_of_mod_eq_zero _ _ hmod (by omega)
    omega
  | succ n ih =>
    intro h0 intr hH hmod hintr
    have hp0 := Nat.two_pow_pos h0
    have hs1 : 1 ≤ leaves.length + 1 := by omega
    have hh0H : h0 < H := by omega
    rw [List.range'_succ]
    simp only [appendLoop]
    by_cases hodd : (leaves.length + 1) / 2 ^ h0 % 2 = 1
    · rw [if_pos hodd]
      have hs2 : (leaves.length + 1) % 2 ^ (h0 + 1) = 2 ^ h0 := by
        rw [mod_pow_succ_eq, hmod, hodd]
        ring
      refine ⟨?_, ?_, ?_, ?_⟩
      · show t1.size = (leaves ++ [l]).length
        simp [List.length_append, hsize1]
      · show (t1.active_branch.set h0 intr).length = H
        rw [List.length_set]
        exact hblen1
      · exact hzh1
      · simp only [List.length_append, List.length_singleton]
        intro h' hh' hodd'
        rcases Nat.lt_trichotomy h' h0 with hlt | heq | hgt
        · exact absurd hodd' (settle_not_lt (leaves.length + 1) h' h0 hlt hmod)
        · subst heq
          show (t1.active_branch.set h' intr).getD h' zeroB256 = _
          rw [getD_set_self _ _ _ _ (by rw [hblen1]; omega), hintr,
            settle_start_eq _ _ hmod hodd']
        · show (t1.active_branch.set h0 intr).getD h' zeroB256 = _
          rw [getD_set_ne _ _ _ _ _ (by omega)]
          have hd1 : leaves.length / 2 ^ h' = (leaves.length + 1) / 2 ^ h' := by
            have := pred_div_pow_eq (leaves.length + 1) h'
              (mod_pow_pos_of_between _ h0 h' hs2 (by omega))
            simpa using this
          have hd2 : leaves.length / 2 ^ (h' + 1) = (leaves.length + 1) / 2 ^ (h' + 1) := by
            have := pred_div_pow_eq (leaves.length + 1) (h' + 1)
              (mod_pow_pos_of_between _ h0 (h' + 1) hs2 (by omega))
            simpa using this
          have hbit : leaves.length / 2 ^ h' % 2 = 1 := by
            rw [hd1]
            exact hodd'
          have hsib := left_sibling_le leaves.length h' hbit
          rw [← hd2, hbr1 h' hh' hbit]
          apply buildRoot_congr
          intro i h1 h2
          exact (leafFun_append_lt _ _ _ (by omega)).symm
    · rw [if_neg hodd]
      have heven : (leaves.length + 1) / 2 ^ h0 % 2 = 0 := by
        rcases Nat.mod_two_eq_zero_or_one ((leaves.length + 1) / 2 ^ h0) with h | h
        · exact h
        · exact absurd h hodd
      have hmod1 : (leaves.length + 1) % 2 ^ (h0 + 1) = 0 := by
        rw [mod_pow_succ_eq, hmod, heven]
        ring
      have hle1 : 2 ^ (h0 + 1) ≤ leaves.length + 1 :=
        two_pow_le_of_mod_eq_zero _ _ hmod1 hs1
      have hp1 : (2 : Nat) ^ (h0 + 1) = 2 ^ h0 * 2 := pow_succ 2 h0
      have hq1 : 1 ≤ (leaves.length + 1) / 2 ^ h0 :=
        Nat.div_pos (two_pow_le_of_mod_eq_zero _ _ hmod hs1) hp0
      have hkdiv : leaves.length / 2 ^ h0 = (leaves.length + 1) / 2 ^ h0 - 1 := by
        have := pred_div_pow_eq_sub (leaves.length + 1) h0 hmod hs1
        simpa using this
      have hkbit : leaves.length / 2 ^ h0 % 2 = 1 := by
        rw [hkdiv]
        omega
      have hkdiv1 : leaves.length / 2 ^ (h0 + 1) = (leaves.length + 1) / 2 ^ (h0 + 1) - 1 := by
        have := pred_div_pow_eq_sub (leaves.length + 1) (h0 + 1) hmod1 hs1
        simpa using this
      have hstart : leaves.length / 2 ^ (h0 + 1) * 2 ^ (h0 + 1) =
          leaves.length + 1 - 2 ^ (h0 + 1) := by
        rw [hkdiv1, aligned_pred_mul _ _ hmod1]
      have hbranch : t1.active_branch.getD h0 zeroB256 =
          buildRoot h0 (leafFun (leaves ++ [l])) (leaves.length + 1 - 2 ^ (h0 + 1)) := by
        rw [hbr1 h0 hh0H hkbit, hstart]
        apply buildRoot_congr
        intro i h1 h2
        exact (leafFun_append_lt _ _ _ (by omega)).symm
      have hintr2 : hashConcat (t1.active_branch.getD h0 zeroB256) intr =
          buildRoot (h0 + 1) (leafFun (leaves ++ [l])) (leaves.length + 1 - 2 ^ (h0 + 1)) := by
        show _ = hashConcat
          (buildRoot h0 (leafFun (leaves ++ [l])) (leaves.length + 1 - 2 ^ (h0 + 1)))
          (buildRoot h0 (leafFun (leaves ++ [l])) ((leaves.length + 1 - 2 ^ (h0 + 1)) + 2 ^ h0))
        rw [hbranch, hintr]
        congr 2
        omega
      rw [Nat.shiftRight_one, div_pow_succ_eq]
      exact ih (h0 + 1) _ (by omega) hmod1 hintr2

theorem goodState_append (H : Nat) (leaves : List B256) (t : IncrementalMerkleTree H)
    (l : B256) (hg : goodState H leaves t) (hcap : leaves.length + 1 ≤ 2 ^ H - 1) :
    goodState H (leaves ++ [l]) ((append t l).1) := by
  obtain ⟨hsize, hblen, hzh, hbr⟩ := hg
  have hp := Nat.two_pow_pos H
  have hintr0 : l = buildRoot 0 (leafFun (leaves ++ [l])) (leaves.length + 1 - 2 ^ 0) := by
    show l = leafFun (leaves ++ [l]) (leaves.length + 1 - 2 ^ 0)
    rw [pow_zero]
    simp only [Nat.add_sub_cancel]
    exact (leafFun_append_self leaves l).symm
  have hmain := appendLoop_goodState H leaves { t with size := t.size + 1 } l
    (by show t.size + 1 = leaves.length + 1; omega)
    (by show t.active_branch.length = H; exact hblen)
    (by show ∀ h, h < H → t.zero_hashes.getD h zeroB256 = zeroHash h; exact hzh)
    (by show ∀ h, h < H → _; exact hbr)
    (by omega)
    H 0 l (by omega) (by rw [pow_zero, Nat.mod_one]) hintr0
  rw [pow_zero, Nat.div_one, ← hsize] at hmain
  unfold append
  rw [one_shiftLeft_eq, List.range_eq_range']
  rw [if_neg (by omega : ¬t.size + 1 > 2 ^ H - 1)]
  exact hmain

theorem rootFold_goodState (H : Nat) (leaves : List B256) (t : IncrementalMerkleTree H)
    (hg : goodState H leaves t) (hcap : leaves.length < 2 ^ H) :
    ∀ (n h0 : Nat) (acc : B256),
      h0 + n = H →
      acc = buildRoot h0 (leafFun leaves) (leaves.length / 2 ^ h0 * 2 ^ h0) →
      ((List.range' h0 n).foldl (rootStep t) (acc, leaves.length / 2 ^ h0)).1 =
        buildRoot H (leafFun leaves) (leaves.length / 2 ^ H * 2 ^ H) := by
  obtain ⟨hsize, hblen, hzh, hbr⟩ := hg
  intro n
  induction n with
  | zero =>
    intro h0 acc hH hacc
    have hh0 : h0 = H := by omega
    subst hh0
    simpa using hacc
  | succ n ih =>
    intro h0 acc hH hacc
    have hh0H : h0 < H := by omega
    rw [List.range'_succ]
    simp only [List.foldl_cons]
    by_cases hodd : leaves.length / 2 ^ h0 % 2 = 1
    · have hstep : rootStep t (acc, leaves.length / 2 ^ h0) h0 =
          (buildRoot (h0 + 1) (leafFun leaves)
              (leaves.length / 2 ^ (h0 + 1) * 2 ^ (h0 + 1)),
            leaves.length / 2 ^ (h0 + 1)) := by
        simp only [rootStep]
        rw [if_pos hodd, Nat.shiftRight_one, div_pow_succ_eq, hbr h0 hh0H hodd, hacc,
          odd_start_eq _ _ hodd]
        exact rfl
      rw [hstep]
      exact ih (h0 + 1) _ (by omega) rfl
    · have heven : leaves.length / 2 ^ h0 % 2 = 0 := by
        rcases Nat.mod_two_eq_zero_or_one (leaves.length / 2 ^ h0) with h | h
        · exact h
        · exact absurd h hodd
      have hzero : buildRoot h0 (leafFun leaves)
          (leaves.length / 2 ^ (h0 + 1) * 2 ^ (h0 + 1) + 2 ^ h0) = zeroHash h0 := by
        apply buildRoot_all_zero h0 (leafFun leaves) leaves.length
        · exact fun i hi => leafFun_default leaves i hi
        · rw [← even_start_eq _ _ heven]
          have h1 := Nat.div_add_mod leaves.length (2 ^ h0)
          have h2 := Nat.mod_lt leaves.length (Nat.two_pow_pos h0)
          have h3 : 2 ^ h0 * (leaves.length / 2 ^ h0) =
              leaves.length / 2 ^ h0 * 2 ^ h0 := Nat.mul_comm _ _
          omega
      have hstep : rootStep t (acc, leaves.length / 2 ^ h0) h0 =
          (buildRoot (h0 + 1) (leafFun leaves)
              (leaves.length / 2 ^ (h0 + 1) * 2 ^ (h0 + 1)),
            leaves.length / 2 ^ (h0 + 1)) := by
        simp only [rootStep]
        rw [if_neg hodd, Nat.shiftRight_one, div_pow_succ_eq, hzh h0 hh0H, hacc,
          even_start_eq _ _ heven, ← hzero]
        exact rfl
      rw [hstep]
      exact ih (h0 + 1) _ (by omega) rfl

theorem root_goodState (H : Nat) (leaves : List B256) (t : IncrementalMerkleTree H)
    (hg : goodState H leaves t) (hcap : leaves.length < 2 ^ H) :
    root t = specDirectRoot H leaves := by
  have hinit : zeroB256 = buildRoot 0 (leafFun leaves)
      (leaves.length / 2 ^ 0 * 2 ^ 0) := by
    show zeroB256 = leafFun leaves (leaves.length / 2 ^ 0 * 2 ^ 0)
    rw [pow_zero, Nat.div_one, Nat.mul_one]
    exact (leafFun_default leaves leaves.length (le_refl _)).symm
  have hmain := rootFold_goodState H leaves t hg hcap H 0 zeroB256 (by omega) hinit
  rw [pow_zero, Nat.div_one, Nat.div_eq_of_lt hcap, Nat.zero_mul] at hmain
  unfold root specDirectRoot
  rw [List.range_eq_range', hg.1]
  exact hmain

theorem goodState_appendAll (H : Nat) (leaves : List B256)
    (hcap : leaves.length ≤ 2 ^ H - 1) :
    goodState H leaves (appendAll (new H) leaves) := by
  induction leaves using List.reverseRecOn with
  | nil => exact goodState_new H
  | append_singleton leaves l ih =>
    rw [appendAll_concat]
    apply goodState_append H leaves _ l
    · exact ih (by simp at hcap ⊢; omega)
    · simp at hcap
      omega

theorem appendLoop_set_branch (H : Nat) (t1 : IncrementalMerkleTree H) (l : B256)
    (s hstar : Nat) (h1 : s % 2 ^ hstar = 0) (h2 : s / 2 ^ hstar % 2 = 1) :
    ∀ (n h0 : Nat) (intr : B256),
      s % 2 ^ h0 = 0 →
      intr = carryUp t1.active_branch l h0 →
      (appendLoop t1 l (List.range' h0 n) intr (s / 2 ^ h0)).2 = Except.ok () →
      ((appendLoop t1 l (List.range' h0 n) intr (s / 2 ^ h0)).1).active_branch =
        t1.active_branch.set hstar (carryUp t1.active_branch l hstar) := by
  intro n
  induction n with
  | zero =>
    intro h0 intr hmod hintr hok
    exact absurd hok (by simp [appendLoop])
  | succ n ih =>
    intro h0 intr hmod hintr hok
    rw [List.range'_succ] at hok ⊢
    simp only [appendLoop] at hok ⊢
    by_cases hodd : s / 2 ^ h0 % 2 = 1
    · rw [if_pos hodd]
      have heq : hstar = h0 := settle_unique s hstar h0 h1 h2 hmod hodd
      subst heq
      rw [hintr]
    · rw [if_neg hodd] at hok ⊢
      have heven : s / 2 ^ h0 % 2 = 0 := by
        rcases Nat.mod_two_eq_zero_or_one (s / 2 ^ h0) with h | h
        · exact h
        · exact absurd h hodd
      have hmod1 : s % 2 ^ (h0 + 1) = 0 := by
        rw [mod_pow_succ_eq, hmod, heven]
        ring
      rw [Nat.shiftRight_one, div_pow_succ_eq] at hok ⊢
      exact ih (h0 + 1) (hashConcat (t1.active_branch.getD h0 zeroB256) intr) hmod1
        (by rw [hintr]; exact rfl) hok

theorem zeroHash_pred (h : Nat) (hh : 1 ≤ h) :
    zeroHash h = hashConcat (zeroHash (h - 1)) (zeroHash (h - 1)) := by
  obtain ⟨m, rfl⟩ : ∃ m, h = m + 1 := ⟨h - 1, by omega⟩
  simp [zeroHash]

/-! ### Keccak-256 test vectors (sanity of the hash embedding) -/

set_option maxRecDepth 40000

theorem keccak256_empty_vector :
    keccak256 [] =
      [0xc5, 0xd2, 0x46, 0x01, 0x86, 0xf7, 0x23, 0x3c, 0x92, 0x7e, 0x7d, 0xb2,
       0xdc, 0xc7, 0x03, 0xc0, 0xe5, 0x00, 0xb6, 0x53, 0xca, 0x82, 0x27, 0x3b,
       0x7b, 0xfa, 0xd8, 0x04, 0x5d, 0x85, 0xa4, 0x70] := by
  decide

theorem keccak256_zeros64_vector :
    keccak256 (List.replicate 64 0) =
      [0xad, 0x32, 0x28, 0xb6, 0x76, 0xf7, 0xd3, 0xcd, 0x42, 0x84, 0xa5, 0x44,
       0x3f, 0x17, 0xf1, 0x96, 0x2b, 0x36, 0xe4, 0x91, 0xb3, 0x0a, 0x40, 0xb2,
       0x40, 0x58, 0x49, 0xe5, 0x97, 0xba, 0x5f, 0xb5] := by
  decide

/-! ### The claims -/

/-- C1: for every height H ≥ 1 and every sequence of leaves with
k ≤ 2^H − 1, appending the leaves one at a time via append and then calling
root yields the same digest as a direct bottom-up keccak256 build of a
complete depth-H binary tree whose first k leaf slots hold the leaves and
whose remaining leaf slots hold the zero digest. -/
theorem c1_append_refines_direct_build (H : Nat) (hH : 1 ≤ H) (leaves : List B256)
    (hk : leaves.length ≤ 2 ^ H - 1) :
    root (appendAll (new H) leaves) = specDirectRoot H leaves := by
  have hp := Nat.two_pow_pos H
  exact root_goodState H leaves _ (goodState_appendAll H leaves hk) (by omega)

/-- Witness for C1 at H = 2 with two concrete distinct leaves. -/
theorem c1_append_refines_direct_build_witness :
    1 ≤ 2 ∧
      ([List.replicate 32 1, List.replicate 32 2] : List B256).length ≤ 2 ^ 2 - 1 ∧
      root (appendAll (new 2) [List.replicate 32 1, List.replicate 32 2]) =
        specDirectRoot 2 [List.replicate 32 1, List.replicate 32 2] :=
  ⟨by decide, by decide,
    c1_append_refines_direct_build 2 (by decide)
      [List.replicate 32 1, List.replicate 32 2] (by decide)⟩

/-- C2 (code bug): at H = 1 the first append fills the tree; the second append
returns TreeFull but has already incremented size from 1 to 2, and the root
changes as a consequence — the failed call does not leave the state unchanged. -/
theorem c2_treefull_mutates_state :
    (append (append (new 1) (List.replicate 32 1)).1 (List.replicate 32 1)).2 =
        Except.error IncrementalMerkleTreeError.TreeFull ∧
      ((append (new 1) (List.replicate 32 1)).1).size = 1 ∧
      ((append (append (new 1) (List.replicate 32 1)).1 (List.replicate 32 1)).1).size = 2 ∧
      root ((append (append (new 1) (List.replicate 32 1)).1 (List.replicate 32 1)).1) ≠
        root ((append (new 1) (List.replicate 32 1)).1) := by
  decide

/-- C3 (code bug): after a failed append at H = 1 the size field equals 2,
violating the claimed invariant size ≤ 2^1 − 1. -/
theorem c3_size_invariant_violated :
    ((append (append (new 1) zeroB256).1 zeroB256).1).size = 2 ∧ ¬2 ≤ 2 ^ 1 - 1 := by
  decide

/-- C4 counterexample: a freshly constructed height-1 accumulator returns
keccak256 of 64 zero bytes from root, which is not the zero digest. -/
theorem c4_fresh_root_not_zero : root (new 1) ≠ zeroB256 := by
  decide

/-- C4 amended: for every H ≥ 1 a freshly constructed accumulator returns the
depth-H empty-subtree digest (iterated keccak256 of paired zero digests) from
root, not the all-zero digest. -/
theorem c4_fresh_root_eq_empty_subtree (H : Nat) (hH : 1 ≤ H) :
    root (new H) = zeroHash H := by
  have hp := Nat.two_pow_pos H
  have h := root_goodState H [] (new H) (goodState_new H) (by simpa using hp)
  rw [h]
  unfold specDirectRoot
  exact buildRoot_all_zero H (leafFun []) 0 0 (fun i hi => leafFun_default [] i (by simp))
    (le_refl 0)

/-- Witness for the amended C4 at H = 1. -/
theorem c4_fresh_root_eq_empty_subtree_witness :
    1 ≤ 1 ∧ root (new 1) = zeroHash 1 :=
  ⟨le_refl 1, c4_fresh_root_eq_empty_subtree 1 (le_refl 1)⟩

/-- C5: starting from new, every append call is Ok while the post-increment
count stays within 2^H − 1 and returns TreeFull exactly when it would exceed
2^H − 1; in particular the first 2^H − 1 calls succeed and every later call
fails with TreeFull. -/
theorem c5_append_result_characterization (H : Nat) (hH : 1 ≤ H)
    (prev : List B256) (l : B256) :
    (append (appendAll (new H) prev) l).2 =
      if prev.length + 1 ≤ 2 ^ H - 1 then Except.ok ()
      else Except.error IncrementalMerkleTreeError.TreeFull := by
  rw [append_snd_eq, appendAll_size]
  have hz : (new H).size = 0 := rfl
  rw [hz, Nat.zero_add]

/-- Witness for C5: the first append at H = 1 succeeds. -/
theorem c5_append_result_characterization_witness :
    1 ≤ 1 ∧
      (append (appendAll (new 1) []) zeroB256).2 =
        (if ([] : List B256).length + 1 ≤ 2 ^ 1 - 1 then Except.ok ()
         else Except.error IncrementalMerkleTreeError.TreeFull) :=
  ⟨le_refl 1, c5_append_result_characterization 1 (le_refl 1) [] zeroB256⟩

/-- C6: the zero-hash table of every constructed instance has the zero digest
at index 0 and each higher entry is the keccak256 of two copies of the entry
below; append never modifies the table (root takes the state immutably). -/
theorem c6_zero_hash_table (H : Nat) (hH : 1 ≤ H) :
    (new H).zero_hashes.getD 0 zeroB256 = zeroB256 ∧
      (∀ h, 1 ≤ h → h ≤ H - 1 →
        (new H).zero_hashes.getD h zeroB256 =
          hashConcat ((new H).zero_hashes.getD (h - 1) zeroB256)
            ((new H).zero_hashes.getD (h - 1) zeroB256)) ∧
      ∀ (t : IncrementalMerkleTree H) (l : B256),
        ((append t l).1).zero_hashes = t.zero_hashes := by
  refine ⟨?_, ?_, fun t l => append_fst_zero_hashes t l⟩
  · rw [zero_hashes_new_getD H 0 (by omega)]
    rfl
  · intro h hh1 hh2
    rw [zero_hashes_new_getD H h (by omega), zero_hashes_new_getD H (h - 1) (by omega)]
    exact zeroHash_pred h hh1

/-- Witness for C6 at H = 2. -/
theorem c6_zero_hash_table_witness :
    (new 2).zero_hashes.getD 0 zeroB256 = zeroB256 ∧
      (∀ h, 1 ≤ h → h ≤ 2 - 1 →
        (new 2).zero_hashes.getD h zeroB256 =
          hashConcat ((new 2).zero_hashes.getD (h - 1) zeroB256)
            ((new 2).zero_hashes.getD (h - 1) zeroB256)) ∧
      ∀ (t : IncrementalMerkleTree 2) (l : B256),
        ((append t l).1).zero_hashes = t.zero_hashes :=
  c6_zero_hash_table 2 (by decide)

/-- C7: from every state reachable from new by append calls, append never
returns the LoopDidNotTerminate error. -/
theorem c7_no_loop_did_not_terminate (H : Nat) (prev : List B256) (l : B256) :
    (append (appendAll (new H) prev) l).2 ≠
      Except.error IncrementalMerkleTreeError.LoopDidNotTerminate := by
  rw [append_snd_eq]
  by_cases h : (appendAll (new H) prev).size + 1 ≤ 2 ^ H - 1 <;> simp [h]

/-- C8: every successful append writes the leaf digest itself (not the carried
intermediate hash) into the flattened cache at 0-based slot
2^H + size − 2, where size is the post-increment leaf count, and clears
cache_valid. -/
theorem c8_leaf_written_to_cache (H : Nat) (t : IncrementalMerkleTree H) (l : B256)
    (hok : (append t l).2 = Except.ok ()) :
    ((append t l).1).intermediates = t.intermediates.set (2 ^ H + (t.size + 1) - 2) l ∧
      ((append t l).1).cache_valid = false := by
  unfold append at hok ⊢
  by_cases h : t.size + 1 > (1 <<< H) - 1
  · rw [if_pos h] at hok
    exact absurd hok (by simp)
  · rw [if_neg h] at hok ⊢
    have := appendLoop_cache_of_ok { t with size := t.size + 1 } l (List.range H) l
      (t.size + 1) hok
    rw [one_shiftLeft_eq] at this
    exact this

/-- Witness for C8: the first append at H = 1 writes the leaf at slot 1. -/
theorem c8_leaf_written_to_cache_witness :
    (append (new 1) zeroB256).2 = Except.ok () ∧
      ((append (new 1) zeroB256).1).intermediates =
          (new 1).intermediates.set (2 ^ 1 + ((new 1).size + 1) - 2) zeroB256 ∧
        ((append (new 1) zeroB256).1).cache_valid = false :=
  ⟨by decide, c8_leaf_written_to_cache 1 (new 1) zeroB256 (by decide)⟩

/-- C9: every successful append rewrites exactly the active-branch entry at the
settle height — the position of the lowest set bit of the post-increment size,
characterized by the two hypotheses — with the carried value, leaving every
other entry unchanged. -/
theorem c9_branch_single_write (H : Nat) (t : IncrementalMerkleTree H) (l : B256)
    (h : Nat) (hmod : (t.size + 1) % 2 ^ h = 0) (hodd : (t.size + 1) / 2 ^ h % 2 = 1)
    (hok : (append t l).2 = Except.ok ()) :
    ((append t l).1).active_branch =
      t.active_branch.set h (carryUp t.active_branch l h) := by
  unfold append at hok ⊢
  by_cases hfull : t.size + 1 > (1 <<< H) - 1
  · rw [if_pos hfull] at hok
    exact absurd hok (by simp)
  · rw [if_neg hfull] at hok ⊢
    rw [List.range_eq_range'] at hok ⊢
    have hok2 : (appendLoop ({ t with size := t.size + 1 } : IncrementalMerkleTree H) l
        (List.range' 0 H) l ((t.size + 1) / 2 ^ 0)).2 = Except.ok () := by
      rw [pow_zero, Nat.div_one]
      exact hok
    have := appendLoop_set_branch H { t with size := t.size + 1 } l (t.size + 1) h hmod hodd
      H 0 l (by rw [pow_zero, Nat.mod_one]) rfl hok2
    rw [pow_zero, Nat.div_one] at this
    exact this

/-- Witness for C9: at H = 1 the first append settles at height 0. -/
theorem c9_branch_single_write_witness :
    ((new 1).size + 1) % 2 ^ 0 = 0 ∧ ((new 1).size + 1) / 2 ^ 0 % 2 = 1 ∧
      (append (new 1) zeroB256).2 = Except.ok () ∧
      ((append (new 1) zeroB256).1).active_branch =
        (new 1).active_branch.set 0 (carryUp (new 1).active_branch zeroB256 0) :=
  ⟨by decide, by decide, by decide,
    c9_branch_single_write 1 (new 1) zeroB256 0 (by decide) (by decide) (by decide)⟩

/-- C10: at height 0 construction succeeds with a capacity-0 accumulator,
root always returns the zero digest (the fold over zero heights returns its
initial value), and every append fails with TreeFull. -/
theorem c10_height_zero_behavior :
    (new 0).size = 0 ∧
      (∀ t : IncrementalMerkleTree 0, root t = zeroB256) ∧
      ∀ (t : IncrementalMerkleTree 0) (l : B256),
        (append t l).2 = Except.error IncrementalMerkleTreeError.TreeFull := by
  refine ⟨rfl, fun t => rfl, fun t l => ?_⟩
  rw [append_snd_eq]
  simp

end IncrementalMerkle
